import Mathlib

/-
  Verification development for the RecordMuse signal-processing pipeline.

  Shallow embedding of the numeric cores of:
    * src/processing/convert.py   (timestamp reconciliation, deduplication,
                                   sample-rate estimation)
    * src/processing/filter.py    (NaN interpolation, de-meaning, zero-phase
                                   filtering)
    * src/processing/normalize.py (baseline z-score normalization)
    * src/analysis/psd.py         (spectral estimation, band-power aggregation)

  Conventions:
    * A float value that may be NaN is embedded as `Option ℚ` (`none` = NaN);
      arithmetic on such values propagates `none`, matching IEEE NaN
      propagation for the operations the code performs.
    * Exact real arithmetic (ℚ, or ℝ where the code takes square roots,
      powers or logarithms) stands in for IEEE doubles.
    * Functions that can raise in Python return `Except String`.
-/

set_option maxHeartbeats 1000000
set_option maxRecDepth 8192

namespace RecordMuse

/-! ### src/processing/convert.py — sample-rate estimation -/

/-- The non-NaN entries of a column, order preserved
(`ts = ts[~np.isnan(ts)]` in `estimate_sample_rate_duration`). -/
def validTs (ts : List (Option ℚ)) : List ℚ :=
  ts.filterMap id

/-- Total duration in seconds spanned by the retained timestamps:
`ts[-1] - ts[0]`, divided by 1000 when `is_milli` (the code's
`duration_sec`). -/
def tsDurationSec (ts : List (Option ℚ)) (is_milli : Bool) : ℚ :=
  let d := (validTs ts).getLastD 0 - (validTs ts).headD 0
  if is_milli then d / 1000 else d

/-- Embedding of `estimate_sample_rate_duration` (src/processing/convert.py,
lines 50-65): drop NaNs, error if fewer than 2 timestamps remain, compute
`duration = ts[-1] - ts[0]` (divided by 1000 when the column is in
milliseconds), error if the duration is non-positive, otherwise return
`(n_samples - 1) / duration_sec`. -/
def estimate_sample_rate_duration (ts : List (Option ℚ)) (is_milli : Bool := true) :
    Except String ℚ :=
  if (validTs ts).length < 2 then
    .error "Not enough timestamps to estimate sample rate."
  else if tsDurationSec ts is_milli ≤ 0 then
    .error "Non-positive duration detected."
  else
    .ok ((((validTs ts).length : ℚ) - 1) / tsDurationSec ts is_milli)

/-! ### src/processing/convert.py — deduplication in `mm_to_bluemuse` -/

/-- Insert a key into a sorted key list (ascending). -/
def insertKey (x : ℚ) : List ℚ → List ℚ
  | [] => [x]
  | y :: ys => if x ≤ y then x :: y :: ys else y :: insertKey x ys

/-- Insertion sort, ascending. -/
def sortKeys : List ℚ → List ℚ
  | [] => []
  | x :: xs => insertKey x (sortKeys xs)

/-- The distinct grouping-key values of a row set, in ascending order
(pandas `groupby` with its default `sort=True` emits groups in ascending
key order). -/
def sortedKeys (rows : List (ℚ × List (Option ℚ))) : List ℚ :=
  sortKeys ((rows.map Prod.fst).dedup)

/-- The rows of one group, in original row order (pandas `groupby`
preserves the within-group row order). -/
def groupRows (rows : List (ℚ × List (Option ℚ))) (k : ℚ) :
    List (ℚ × List (Option ℚ)) :=
  rows.filter (fun r => decide (r.1 = k))

/-- Last non-null entry of a column (pandas `DataFrameGroupBy.last`
computes, per column, the last non-null entry of the group; `none` when
every entry is null). -/
def lastValid (vals : List (Option ℚ)) : Option ℚ :=
  (vals.filterMap id).getLast?

/-- First non-null entry of a column (pandas `DataFrameGroupBy.first`). -/
def firstValid (vals : List (Option ℚ)) : Option ℚ :=
  (vals.filterMap id).head?

/-- Number of value columns of the row set (the row sets fed to the
deduplication step come from a rectangular dataframe, so every row has the
same number of columns). -/
def rowNcols (rows : List (ℚ × List (Option ℚ))) : ℕ :=
  ((rows.head?).map (fun r => r.2.length)).getD 0

/-- Embedding of the deduplication step of `mm_to_bluemuse`
(src/processing/convert.py, lines 144-152):
`groups = signals.groupby(key, as_index=False)` followed by
`groups.last() if groupby_choice == 'last' else groups.first()`.
Rows sharing one grouping-key value collapse to a single row holding, per
column, the last (resp. first) non-null value of the group. -/
def mm_groupby_dedupe (groupby_choice : String)
    (rows : List (ℚ × List (Option ℚ))) : List (ℚ × List (Option ℚ)) :=
  (sortedKeys rows).map (fun k =>
    let grp := groupRows rows k
    (k, (List.range (rowNcols rows)).map (fun j =>
      let colvals := grp.map (fun r => r.2.getD j none)
      if groupby_choice = "last" then lastValid colvals else firstValid colvals)))

/-- Modelled from the spec: deduplication that keeps, for each grouping-key
value, the entire last-occurring row of the group ("rows sharing identical
values across the grouping key(s) collapse to one row ... `last` occurrence
wins"). -/
def dedupeLastOccurrence (rows : List (ℚ × List (Option ℚ))) :
    List (ℚ × List (Option ℚ)) :=
  (sortedKeys rows).map (fun k => (groupRows rows k).getLastD (k, []))

/-- Modelled from the spec: deduplication that keeps the entire
first-occurring row of each group. -/
def dedupeFirstOccurrence (rows : List (ℚ × List (Option ℚ))) :
    List (ℚ × List (Option ℚ)) :=
  (sortedKeys rows).map (fun k => ((groupRows rows k).headD (k, [])))

/-! ### Supporting lemmas for the deduplication step -/

theorem mem_insertKey {x a : ℚ} {l : List ℚ} :
    x ∈ insertKey a l ↔ x = a ∨ x ∈ l := by
  induction l with
  | nil => simp [insertKey]
  | cons y ys ih =>
      simp only [insertKey]
      split
      · simp
      · simp only [List.mem_cons, ih]
        tauto

theorem mem_sortKeys {x : ℚ} {l : List ℚ} : x ∈ sortKeys l ↔ x ∈ l := by
  induction l with
  | nil => simp [sortKeys]
  | cons y ys ih => simp [sortKeys, mem_insertKey, ih]

theorem groupRows_ne_nil {rows : List (ℚ × List (Option ℚ))} {k : ℚ}
    (h : k ∈ sortedKeys rows) : groupRows rows k ≠ [] := by
  have hk : k ∈ rows.map Prod.fst := by
    have := (mem_sortKeys (l := (rows.map Prod.fst).dedup)).1 h
    simpa [List.mem_dedup] using this
  obtain ⟨r, hr, hrk⟩ := List.mem_map.1 hk
  have : r ∈ groupRows rows k := by
    simp [groupRows, List.mem_filter, hr, hrk]
  intro hnil
  rw [hnil] at this
  exact (List.not_mem_nil r) this

theorem lastValid_all_some {l : List (Option ℚ)}
    (h : ∀ v ∈ l, v.isSome) : lastValid l = l.getLast?.join := by
  induction l with
  | nil => rfl
  | cons a t ih =>
      obtain ⟨w, rfl⟩ := Option.isSome_iff_exists.1 (h a (List.mem_cons_self a t))
      have ht : ∀ v ∈ t, v.isSome := fun v hv => h v (List.mem_cons_of_mem _ hv)
      cases t with
      | nil => simp [lastValid]
      | cons b u =>
          obtain ⟨wb, rfl⟩ :=
            Option.isSome_iff_exists.1 (ht b (List.mem_cons_self b u))
          have := ih ht
          simp only [lastValid, List.filterMap_cons, id] at this ⊢
          rw [List.getLast?_cons_cons]
          rw [show (some w :: some wb :: u).getLast? = (some wb :: u).getLast? from
            List.getLast?_cons_cons ..]
          exact this

theorem firstValid_all_some {l : List (Option ℚ)}
    (h : ∀ v ∈ l, v.isSome) : firstValid l = l.head?.join := by
  cases l with
  | nil => rfl
  | cons a t =>
      obtain ⟨w, rfl⟩ := Option.isSome_iff_exists.1 (h a (List.mem_cons_self a t))
      simp [firstValid]

/-- With no missing values and rectangular rows, the per-column
last-non-null aggregation selects exactly the last row of each group. -/
theorem dedupe_last_of_all_some (rows : List (ℚ × List (Option ℚ)))
    (hsome : ∀ r ∈ rows, ∀ v ∈ r.2, v.isSome)
    (hrect : ∀ r ∈ rows, r.2.length = rowNcols rows) :
    mm_groupby_dedupe "last" rows = dedupeLastOccurrence rows := by
  unfold mm_groupby_dedupe dedupeLastOccurrence
  refine List.map_congr_left (fun k hk => ?_)
  have hne : groupRows rows k ≠ [] := groupRows_ne_nil hk
  obtain ⟨glast, hglast⟩ := Option.ne_none_iff_exists.1
    (mt List.getLast?_eq_none_iff.1 hne)
  have hglast' : (groupRows rows k).getLast? = some glast := hglast.symm
  have hmem : glast ∈ groupRows rows k := by
    obtain ⟨hne', heq⟩ := List.mem_getLast?_eq_getLast (Option.mem_def.2 hglast')
    exact heq ▸ List.getLast_mem hne'
  have hmemrows : glast ∈ rows := List.mem_of_mem_filter hmem
  have hkey : glast.1 = k := by
    have := List.of_mem_filter hmem
    simpa using this
  have hlen : glast.2.length = rowNcols rows := hrect glast hmemrows
  have hD : (groupRows rows k).getLastD (k, []) = glast := by
    rw [List.getLastD_eq_getLast?, hglast', Option.getD_some]
  rw [hD]
  refine Prod.ext hkey.symm ?_
  simp only [reduceIte]
  apply List.ext_getElem
  · simp [hlen]
  · intro i hi1 hi2
    have hic : i < rowNcols rows := by simpa using hi1
    have hcs : ∀ v ∈ (groupRows rows k).map (fun r => r.2.getD i none), v.isSome := by
      intro v hv
      obtain ⟨r, hr, rfl⟩ := List.mem_map.1 hv
      have hrlen : r.2.length = rowNcols rows := hrect r (List.mem_of_mem_filter hr)
      have hilt : i < r.2.length := by omega
      rw [List.getD_eq_getElem r.2 none hilt]
      exact hsome r (List.mem_of_mem_filter hr) _ (List.getElem_mem hilt)
    have hlv := lastValid_all_some hcs
    have hmap : ((groupRows rows k).map (fun r => r.2.getD i none)).getLast?
        = some (glast.2.getD i none) := by
      rw [List.getLast?_map, hglast']
      rfl
    simp only [List.getElem_map, List.getElem_range]
    rw [hlv, hmap]
    have hj : (some (glast.2.getD i none)).join = glast.2.getD i none := rfl
    rw [hj]
    exact List.getD_eq_getElem glast.2 none (by omega)

/-- With no missing values and rectangular rows, the per-column
first-non-null aggregation selects exactly the first row of each group. -/
theorem dedupe_first_of_all_some (rows : List (ℚ × List (Option ℚ)))
    (hsome : ∀ r ∈ rows, ∀ v ∈ r.2, v.isSome)
    (hrect : ∀ r ∈ rows, r.2.length = rowNcols rows)
    (choice : String) (hch : choice ≠ "last") :
    mm_groupby_dedupe choice rows = dedupeFirstOccurrence rows := by
  unfold mm_groupby_dedupe dedupeFirstOccurrence
  refine List.map_congr_left (fun k hk => ?_)
  have hne : groupRows rows k ≠ [] := groupRows_ne_nil hk
  obtain ⟨ghead, hghead⟩ := Option.ne_none_iff_exists.1
    (mt List.head?_eq_none_iff.1 hne)
  have hghead' : (groupRows rows k).head? = some ghead := hghead.symm
  have hmem : ghead ∈ groupRows rows k := List.mem_of_mem_head? hghead'
  have hmemrows : ghead ∈ rows := List.mem_of_mem_filter hmem
  have hkey : ghead.1 = k := by
    have := List.of_mem_filter hmem
    simpa using this
  have hlen : ghead.2.length = rowNcols rows := hrect ghead hmemrows
  have hD : (groupRows rows k).headD (k, []) = ghead := by
    rw [List.headD_eq_head?, hghead', Option.getD_some]
  rw [hD]
  refine Prod.ext hkey.symm ?_
  simp only [if_neg hch]
  apply List.ext_getElem
  · simp [hlen]
  · intro i hi1 hi2
    have hic : i < rowNcols rows := by simpa using hi1
    have hcs : ∀ v ∈ (groupRows rows k).map (fun r => r.2.getD i none), v.isSome := by
      intro v hv
      obtain ⟨r, hr, rfl⟩ := List.mem_map.1 hv
      have hrlen : r.2.length = rowNcols rows := hrect r (List.mem_of_mem_filter hr)
      have hilt : i < r.2.length := by omega
      rw [List.getD_eq_getElem r.2 none hilt]
      exact hsome r (List.mem_of_mem_filter hr) _ (List.getElem_mem hilt)
    have hfv := firstValid_all_some hcs
    have hmap : ((groupRows rows k).map (fun r => r.2.getD i none)).head?
        = some (ghead.2.getD i none) := by
      rw [List.head?_map, hghead']
      rfl
    simp only [List.getElem_map, List.getElem_range]
    rw [hfv, hmap]
    have hj : (some (ghead.2.getD i none)).join = ghead.2.getD i none := rfl
    rw [hj]
    exact List.getD_eq_getElem ghead.2 none (by omega)

/-! ### Claim C5 — sample-rate estimation contract -/

/-- C5: the sample-rate estimator returns `(N - 1) / duration_sec` whenever
at least 2 timestamps remain after NaN removal and the duration is
positive; it returns an explicit error exactly when fewer than 2 timestamps
remain or the total duration is non-positive; and timestamps
`[0, 10, 20, 30]` in milliseconds yield exactly 100 Hz. -/
theorem sample_rate_contract :
    (∀ (ts : List (Option ℚ)) (milli : Bool),
        (∃ v, estimate_sample_rate_duration ts milli = .ok v) ↔
          (2 ≤ (validTs ts).length ∧ 0 < tsDurationSec ts milli)) ∧
    (∀ (ts : List (Option ℚ)) (milli : Bool),
        2 ≤ (validTs ts).length → 0 < tsDurationSec ts milli →
        estimate_sample_rate_duration ts milli =
          .ok ((((validTs ts).length : ℚ) - 1) / tsDurationSec ts milli)) ∧
    estimate_sample_rate_duration [some 0, some 10, some 20, some 30] true
      = .ok 100 := by
  refine ⟨?_, ?_, by norm_num [estimate_sample_rate_duration, tsDurationSec, validTs, List.filterMap_cons]⟩
  · intro ts milli
    constructor
    · rintro ⟨v, hv⟩
      unfold estimate_sample_rate_duration at hv
      by_cases h1 : (validTs ts).length < 2
      · rw [if_pos h1] at hv
        exact Except.noConfusion hv
      · by_cases h2 : tsDurationSec ts milli ≤ 0
        · rw [if_neg h1, if_pos h2] at hv
          exact Except.noConfusion hv
        · exact ⟨by omega, lt_of_not_le h2⟩
    · rintro ⟨h1, h2⟩
      refine ⟨(((validTs ts).length : ℚ) - 1) / tsDurationSec ts milli, ?_⟩
      unfold estimate_sample_rate_duration
      rw [if_neg (by omega), if_neg (not_le.2 h2)]
  · intro ts milli h1 h2
    unfold estimate_sample_rate_duration
    rw [if_neg (by omega), if_neg (not_le.2 h2)]

/-- C5 witness: the contract instantiated on the concrete millisecond
column `[0, 10, 25]`. -/
theorem sample_rate_contract_witness :
    2 ≤ (validTs [some 0, some 10, some 25]).length ∧
    0 < tsDurationSec [some 0, some 10, some 25] true ∧
    estimate_sample_rate_duration [some 0, some 10, some 25] true =
      .ok ((((validTs [some 0, some 10, some 25]).length : ℚ) - 1) /
        tsDurationSec [some 0, some 10, some 25] true) :=
  ⟨by decide, by norm_num [tsDurationSec, validTs],
    sample_rate_contract.2.1 [some 0, some 10, some 25] true (by decide)
      (by norm_num [tsDurationSec, validTs])⟩

/-! ### Claim C3 — deduplication tie-break -/

/-- C3 counterexample: with a null value present, `groupby(...).last()`
keeps the last NON-NULL value per column (pandas semantics), not the last
occurrence: on rows `[(100, 1), (100, NaN)]` the code returns `(100, 1)`
while keeping the last occurrence would return `(100, NaN)`. -/
theorem dedupe_keeps_last_occurrence_counterexample :
    mm_groupby_dedupe "last" [((100 : ℚ), [some (1 : ℚ)]), (100, [none])]
      = [(100, [some 1])] ∧
    dedupeLastOccurrence [((100 : ℚ), [some (1 : ℚ)]), (100, [none])]
      = [(100, [none])] ∧
    mm_groupby_dedupe "last" [((100 : ℚ), [some (1 : ℚ)]), (100, [none])]
      ≠ dedupeLastOccurrence [((100 : ℚ), [some (1 : ℚ)]), (100, [none])] :=
  ⟨by decide, by decide, by decide⟩

/-- C3 (amended): deduplication collapses rows sharing a grouping-key value
to one row holding, per column, the last (tie-break `last`, the default)
or first (any other tie-break) non-null value of the group; when no value
is missing this keeps exactly the last resp. first occurrence, and the
concrete example `[(100,1),(100,2),(200,3)]` yields `[(100,2),(200,3)]`
under `last` and `[(100,1),(200,3)]` under `first`. -/
theorem dedupe_tiebreak_amended :
    (∀ (rows : List (ℚ × List (Option ℚ))) (choice : String),
        (∀ r ∈ rows, ∀ v ∈ r.2, v.isSome) →
        (∀ r ∈ rows, r.2.length = rowNcols rows) →
        mm_groupby_dedupe choice rows =
          if choice = "last" then dedupeLastOccurrence rows
          else dedupeFirstOccurrence rows) ∧
    mm_groupby_dedupe "last"
        [((100 : ℚ), [some (1 : ℚ)]), (100, [some 2]), (200, [some 3])]
      = [(100, [some 2]), (200, [some 3])] ∧
    mm_groupby_dedupe "first"
        [((100 : ℚ), [some (1 : ℚ)]), (100, [some 2]), (200, [some 3])]
      = [(100, [some 1]), (200, [some 3])] := by
  refine ⟨?_, by decide, by decide⟩
  intro rows choice hsome hrect
  by_cases hch : choice = "last"
  · subst hch
    rw [if_pos rfl]
    exact dedupe_last_of_all_some rows hsome hrect
  · rw [if_neg hch]
    exact dedupe_first_of_all_some rows hsome hrect choice hch

/-- C3 witness: the amended contract instantiated on a concrete all-valid
row set with tie-break `first`. -/
theorem dedupe_tiebreak_amended_witness :
    (∀ r ∈ [((100 : ℚ), [some (1 : ℚ)]), (100, [some 2]), (200, [some 3])],
        ∀ v ∈ r.2, v.isSome) ∧
    mm_groupby_dedupe "first"
        [((100 : ℚ), [some (1 : ℚ)]), (100, [some 2]), (200, [some 3])]
      = dedupeFirstOccurrence
          [((100 : ℚ), [some (1 : ℚ)]), (100, [some 2]), (200, [some 3])] :=
  ⟨by decide, by
    simpa using dedupe_tiebreak_amended.1
      [((100 : ℚ), [some (1 : ℚ)]), (100, [some 2]), (200, [some 3])] "first"
      (by decide) (by decide)⟩

/-! ### Claim C9 — unrecognized tie-break values -/

/-- C9: any tie-break value other than the string "last" (misspellings and
arbitrary strings included) makes the deduplication behave exactly like
tie-break "first"; no validation error is raised for an unrecognized
value. -/
theorem dedupe_unrecognized_tiebreak_first (choice : String)
    (h : choice ≠ "last") (rows : List (ℚ × List (Option ℚ))) :
    mm_groupby_dedupe choice rows = mm_groupby_dedupe "first" rows := by
  have h2 : ("first" : String) = "last" ↔ False := by simp
  unfold mm_groupby_dedupe
  simp only [h, h2, if_false]

/-- C9 witness: the misspelled tie-break "lsat" deduplicates exactly like
"first" on a concrete row set. -/
theorem dedupe_unrecognized_tiebreak_first_witness :
    ("lsat" : String) ≠ "last" ∧
    mm_groupby_dedupe "lsat" [((100 : ℚ), [some (1 : ℚ)]), (100, [some 2])]
      = mm_groupby_dedupe "first" [((100 : ℚ), [some (1 : ℚ)]), (100, [some 2])] :=
  ⟨by decide, dedupe_unrecognized_tiebreak_first "lsat" (by decide)
    [((100 : ℚ), [some (1 : ℚ)]), (100, [some 2])]⟩

/-! ### src/processing/filter.py — configuration constants -/

/-- Module-level constant `FS` of src/processing/filter.py: EEG sampling
rate in Hz. -/
def FS : ℚ := 256

/-- Module-level constant `NOTCH_FREQ`: power line frequency in Hz. -/
def NOTCH_FREQ : ℚ := 60

/-- Module-level constant `NOTCH_Q`: notch quality factor. -/
def NOTCH_Q : ℚ := 25

/-- Module-level constant `BANDPASS_LOW` (Hz). -/
def BANDPASS_LOW : ℚ := 1

/-- Module-level constant `BANDPASS_HIGH` (Hz). -/
def BANDPASS_HIGH : ℚ := 40

/-- Module-level constant `BANDPASS_ORDER`. -/
def BANDPASS_ORDER : ℕ := 4

/-- Parameter list of `def filter_eeg(eeg_csv_path, apply_bandpass:bool=False,
verbose:bool=True)` in src/processing/filter.py, in declaration order. -/
def filter_eeg_param_names : List String :=
  ["eeg_csv_path", "apply_bandpass", "verbose"]

/-! ### src/analysis/psd.py — configuration constants -/

/-- Module-level constant `SAMPLE_RATE` of src/analysis/psd.py (Hz). -/
def SAMPLE_RATE : ℕ := 256

/-- Module-level constant `WINDOW_SIZE` of src/analysis/psd.py (samples). -/
def WINDOW_SIZE : ℕ := 256

/-- Module-level constant `SLIDE_RATE` of src/analysis/psd.py: the hop
size; the spectrogram is called with `noverlap = WINDOW_SIZE - SLIDE_RATE`. -/
def SLIDE_RATE : ℕ := 22

/-- Parameter list of `def compute_muse_psd(df:pd.DataFrame)` in
src/analysis/psd.py, in declaration order. -/
def compute_muse_psd_param_names : List String := ["df"]

/-! ### src/processing/filter.py — NaN interpolation -/

/-- Embedding of `numpy.interp(q, xp, fp)` for one query point, with `xp`
strictly increasing: constant extrapolation outside `[xp[0], xp[-1]]`
(`fp[0]` to the left, `fp[-1]` to the right), linear interpolation on the
segment containing `q` otherwise. -/
def npInterp (q : ℚ) : List ℚ → List ℚ → ℚ
  | [], _ => 0
  | [_], f0 :: _ => f0
  | x0 :: x1 :: xs, f0 :: f1 :: fs =>
      if q < x0 then f0
      else if q < x1 then f0 + (f1 - f0) * (q - x0) / (x1 - x0)
      else npInterp q (x1 :: xs) (f1 :: fs)
  | _, _ => 0

/-- Index/value pairs of the valid (non-NaN) samples of a channel, in
ascending index order, starting the index count at `i0`. -/
def validPairsAux (i0 : ℕ) : List (Option ℚ) → List (ℚ × ℚ)
  | [] => []
  | none :: t => validPairsAux (i0 + 1) t
  | some v :: t => ((i0 : ℚ), v) :: validPairsAux (i0 + 1) t

/-- Index/value pairs of the valid samples (`idx[~nans]` paired with
`x[~nans]` in `interpolate_nans`). -/
def validPairs (x : List (Option ℚ)) : List (ℚ × ℚ) :=
  validPairsAux 0 x

/-- The indices of the valid (non-NaN) samples of a channel, ascending
(`idx[~nans]` in `interpolate_nans`). -/
def validIdx (x : List (Option ℚ)) : List ℚ :=
  (validPairs x).map Prod.fst

/-- The values of the valid samples of a channel, in order (`x[~nans]`). -/
def validVals (x : List (Option ℚ)) : List ℚ :=
  (validPairs x).map Prod.snd

/-- Embedding of `interpolate_nans` (src/processing/filter.py, lines 25-31):
valid samples are kept, each NaN sample at index `i` is replaced by
`np.interp(i, idx[~nans], x[~nans])`. -/
def interpolate_nans (x : List (Option ℚ)) : List ℚ :=
  (List.range x.length).map (fun i =>
    match x.getD i none with
    | some v => v
    | none => npInterp (i : ℚ) (validIdx x) (validVals x))

/-! ### src/processing/filter.py — de-meaning and zero-phase filtering -/

/-- Arithmetic mean of a channel (`np.mean(x)`); 0 on the empty list,
where numpy would return NaN. -/
def listMean (x : List ℚ) : ℚ :=
  x.sum / x.length

/-- De-meaning step of `filter_eeg` (`x = x - np.mean(x)`). -/
def demean (x : List ℚ) : List ℚ :=
  x.map (fun v => v - listMean x)

/-- One step of `scipy.signal.lfilter` in direct form II transposed, with
coefficients already normalized by `a[0]`: output
`y = b0 * x + z0` and next state
`z_i = b_(i+1) * x + z_(i+1) - a_(i+1) * y`. -/
def lfilterStep (bn an : List ℚ) (x : ℚ) (z : List ℚ) : ℚ × List ℚ :=
  let y := bn.headD 0 * x + z.headD 0
  (y, (List.range z.length).map (fun i =>
    bn.getD (i + 1) 0 * x + z.getD (i + 1) 0 - an.getD (i + 1) 0 * y))

/-- Recursion of `lfilter` over the input signal, threading the filter
state. -/
def lfilterAux (bn an : List ℚ) : List ℚ → List ℚ → List ℚ
  | [], _ => []
  | x :: xs, z =>
      let s := lfilterStep bn an x z
      s.1 :: lfilterAux bn an xs s.2

/-- Embedding of `scipy.signal.lfilter(b, a, x, zi)`: coefficients are
normalized by `a[0]`, then the signal is filtered in direct form II
transposed starting from state `zi`. -/
def lfilter (b a x zi : List ℚ) : List ℚ :=
  let a0 := a.headD 0
  lfilterAux (b.map (· / a0)) (a.map (· / a0)) x zi

/-- Embedding of `scipy.signal._arraytools.odd_ext(x, n)`: extend `x` on
both sides by `n` samples odd-reflected about the end points
(`2*x[0] - x[n..1]` on the left, `2*x[-1] - x[len-2..len-1-n]` on the
right). -/
def odd_ext (x : List ℚ) (n : ℕ) : List ℚ :=
  match x with
  | [] => []
  | _ =>
      let x0 := x.headD 0
      let xl := x.getLastD 0
      ((List.range n).map (fun i => 2 * x0 - x.getD (n - i) 0)) ++ x ++
        ((List.range n).map (fun i => 2 * xl - x.getD (x.length - 2 - i) 0))

/-- Embedding of `scipy.signal.filtfilt(b, a, x)` with its defaults
(`padtype='odd'`, `padlen=3*max(len(a),len(b))`, `method='pad'`): odd-extend
the signal, filter forward starting from `lfilter_zi(b,a)` scaled by the
first extended sample, reverse, filter again with the initial state scaled
by the first sample of the reversed signal, reverse back and slice off the
padding. The steady-state vector `lfilter_zi(b, a)` (the solution of a small
linear system) enters only scaled by a signal sample, so it is taken here as
the explicit argument `zi_base`; every theorem below quantifies over it.
Errors when the signal is not longer than the padding, as scipy does. -/
def filtfilt (b a zi_base : List ℚ) (x : List ℚ) : Except String (List ℚ) :=
  let padlen := 3 * max a.length b.length
  if x.length ≤ padlen then
    .error "The length of the input vector x must be greater than padlen."
  else
    let ext := odd_ext x padlen
    let y1 := lfilter b a ext (zi_base.map (· * ext.headD 0))
    let y1r := y1.reverse
    let y2 := lfilter b a y1r (zi_base.map (· * y1r.headD 0))
    .ok ((y2.reverse.drop padlen).take x.length)

/-- Embedding of the per-channel body of the filter loop of `filter_eeg`
(src/processing/filter.py, lines 74-93): de-mean the channel, apply the
zero-phase notch filter, then the zero-phase band-pass filter when
`apply_bandpass` is set. The numeric filter coefficients (designed by
`iirnotch` and `butter`, irrational reals in general) and the two
`lfilter_zi` steady-state vectors are explicit arguments; the theorems
quantify over them. -/
def filter_eeg_channel (b_notch a_notch zi_notch b_bp a_bp zi_bp : List ℚ)
    (apply_bandpass : Bool) (x : List ℚ) : Except String (List ℚ) := do
  let x1 := demean x
  let x2 ← filtfilt b_notch a_notch zi_notch x1
  if apply_bandpass then filtfilt b_bp a_bp zi_bp x2 else pure x2

/-! ### Zero-preservation lemmas for the filter stage -/

theorem headD_zero {x : List ℚ} (h : ∀ v ∈ x, v = 0) : x.headD 0 = 0 := by
  cases x with
  | nil => rfl
  | cons a t => exact h a (List.mem_cons_self a t)

theorem getLastD_zero {x : List ℚ} (h : ∀ v ∈ x, v = 0) : x.getLastD 0 = 0 := by
  cases x with
  | nil => rfl
  | cons a t =>
      rw [List.getLastD_eq_getLast?, List.getLast?_eq_getLast (a :: t) (by simp)]
      simp only [Option.getD_some]
      exact h _ (List.getLast_mem (by simp))

theorem getD_zero {x : List ℚ} (h : ∀ v ∈ x, v = 0) (i : ℕ) : x.getD i 0 = 0 := by
  by_cases hi : i < x.length
  · rw [List.getD_eq_getElem _ _ hi]
    exact h _ (List.getElem_mem hi)
  · rw [List.getD_eq_default _ _ (le_of_not_lt hi)]

theorem lfilterAux_zero (bn an : List ℚ) :
    ∀ (xs z : List ℚ), (∀ v ∈ xs, v = 0) → (∀ v ∈ z, v = 0) →
      lfilterAux bn an xs z = List.replicate xs.length 0 := by
  intro xs
  induction xs with
  | nil => intro z _ _; rfl
  | cons x t ih =>
      intro z hxs hz
      have hx0 : x = 0 := hxs x (List.mem_cons_self x t)
      have hy : (lfilterStep bn an x z).1 = 0 := by
        show bn.headD 0 * x + z.headD 0 = 0
        rw [hx0, headD_zero hz]
        ring
      have hz' : ∀ v ∈ (lfilterStep bn an x z).2, v = 0 := by
        intro v hv
        simp only [lfilterStep] at hv
        obtain ⟨i, _, rfl⟩ := List.mem_map.1 hv
        rw [hx0, getD_zero hz, headD_zero hz]
        ring
      simp only [lfilterAux, List.length_cons, List.replicate_succ]
      rw [hy, ih _ (fun v hv => hxs v (List.mem_cons_of_mem _ hv)) hz']

theorem lfilter_zero (b a : List ℚ) {x zi : List ℚ}
    (hx : ∀ v ∈ x, v = 0) (hz : ∀ v ∈ zi, v = 0) :
    lfilter b a x zi = List.replicate x.length 0 :=
  lfilterAux_zero _ _ x zi hx hz

theorem odd_ext_all_zero {x : List ℚ} (n : ℕ) (h : ∀ v ∈ x, v = 0) :
    ∀ v ∈ odd_ext x n, v = 0 := by
  cases x with
  | nil => intro v hv; simp [odd_ext] at hv
  | cons a t =>
      intro v hv
      simp only [odd_ext, List.mem_append, List.mem_map, List.mem_range] at hv
      rcases hv with (⟨i, _, rfl⟩ | hv) | ⟨i, _, rfl⟩
      · rw [headD_zero h, getD_zero h]
        ring
      · exact h v hv
      · rw [getLastD_zero h, getD_zero h]
        ring

theorem odd_ext_length {x : List ℚ} (n : ℕ) (hx : x ≠ []) :
    (odd_ext x n).length = n + x.length + n := by
  cases x with
  | nil => exact absurd rfl hx
  | cons a t =>
      simp [odd_ext]
      omega

theorem zi_scaled_zero {zi ext : List ℚ} (hext : ∀ v ∈ ext, v = 0) :
    ∀ v ∈ zi.map (· * ext.headD 0), v = 0 := by
  intro v hv
  obtain ⟨w, _, rfl⟩ := List.mem_map.1 hv
  rw [headD_zero hext]
  ring

theorem filtfilt_zero (b a zi : List ℚ) (n : ℕ)
    (hlen : 3 * max a.length b.length < n) :
    filtfilt b a zi (List.replicate n 0) = .ok (List.replicate n 0) := by
  have hnz : n ≠ 0 := by omega
  have hmem : ∀ v ∈ List.replicate n (0 : ℚ), v = 0 :=
    fun v hv => List.eq_of_mem_replicate hv
  have hne : List.replicate n (0 : ℚ) ≠ [] := by simp [hnz]
  set p := 3 * max a.length b.length with hp
  have hextz := odd_ext_all_zero (x := List.replicate n (0 : ℚ)) p hmem
  have hextlen : (odd_ext (List.replicate n (0 : ℚ)) p).length = p + n + p := by
    rw [odd_ext_length p hne, List.length_replicate]
  have hrepz : ∀ (m : ℕ), ∀ v ∈ List.replicate m (0 : ℚ), v = 0 :=
    fun _ v hv => List.eq_of_mem_replicate hv
  have h1 : lfilter b a (odd_ext (List.replicate n (0 : ℚ)) p)
      (zi.map (· * (odd_ext (List.replicate n (0 : ℚ)) p).headD 0)) =
      List.replicate (p + n + p) 0 := by
    rw [lfilter_zero b a hextz (zi_scaled_zero hextz), hextlen]
  have h2 : lfilter b a (List.replicate (p + n + p) (0 : ℚ))
      (zi.map (· * (List.replicate (p + n + p) (0 : ℚ)).headD 0)) =
      List.replicate (p + n + p) 0 := by
    rw [lfilter_zero b a (hrepz _) (zi_scaled_zero (hrepz _)), List.length_replicate]
  have hmin : min n (p + n + p - p) = n := by omega
  simp only [filtfilt, ← hp]
  rw [if_neg (by simp only [List.length_replicate]; omega)]
  rw [h1, List.reverse_replicate, h2, List.reverse_replicate, List.drop_replicate,
    List.take_replicate, List.length_replicate, hmin]

theorem demean_const (n : ℕ) (c : ℚ) :
    demean (List.replicate n c) = List.replicate n 0 := by
  cases n with
  | zero => rfl
  | succ m =>
      have hne : ((m : ℚ) + 1) ≠ 0 := by positivity
      have hmean : listMean (List.replicate (m + 1) c) = c := by
        simp only [listMean, List.sum_replicate, List.length_replicate,
          nsmul_eq_mul, Nat.cast_add, Nat.cast_one]
        field_simp
      simp [demean, hmean, List.map_replicate]

/-! ### Claim C6 — constant channels de-mean to zero, filters preserve zero -/

/-- C6: de-meaning a constant-valued channel produces the all-zero channel;
the zero-phase `filtfilt` filter (for any coefficient vectors and any
steady-state vector, hence in particular the notch and band-pass designs)
maps the all-zero channel to itself; consequently the per-channel filter
pipeline of `filter_eeg` sends every constant channel to the all-zero
channel, with or without the band-pass stage. -/
theorem filter_zero_preservation :
    (∀ (n : ℕ) (c : ℚ), demean (List.replicate n c) = List.replicate n 0) ∧
    (∀ (b a zi : List ℚ) (n : ℕ), 3 * max a.length b.length < n →
        filtfilt b a zi (List.replicate n 0) = .ok (List.replicate n 0)) ∧
    (∀ (bn an zn bb ab zb : List ℚ) (apply_bandpass : Bool) (n : ℕ) (c : ℚ),
        3 * max an.length bn.length < n →
        3 * max ab.length bb.length < n →
        filter_eeg_channel bn an zn bb ab zb apply_bandpass (List.replicate n c) =
          .ok (List.replicate n 0)) := by
  refine ⟨demean_const, filtfilt_zero, ?_⟩
  intro bn an zn bb ab zb bp n c h1 h2
  unfold filter_eeg_channel
  rw [demean_const n c]
  show (do
      let x2 ← filtfilt bn an zn (List.replicate n 0)
      if bp = true then filtfilt bb ab zb x2 else pure x2) =
    Except.ok (List.replicate n 0)
  rw [filtfilt_zero bn an zn n h1]
  show (if bp = true then filtfilt bb ab zb (List.replicate n 0)
      else pure (List.replicate n 0)) = Except.ok (List.replicate n 0)
  cases bp with
  | false => rfl
  | true =>
      show filtfilt bb ab zb (List.replicate n 0) = _
      rw [filtfilt_zero bb ab zb n h2]

/-- C6 witness: the pipeline applied to a constant channel of ten samples
with concrete coefficient and steady-state vectors, band-pass enabled. -/
theorem filter_zero_preservation_witness :
    3 * max ([(1 : ℚ), 0, 0] : List ℚ).length ([(1 : ℚ), 2, 1] : List ℚ).length < 10 ∧
    3 * max ([(1 : ℚ), 3] : List ℚ).length ([(2 : ℚ), 1] : List ℚ).length < 10 ∧
    filter_eeg_channel [(1 : ℚ), 2, 1] [1, 0, 0] [5, 7] [2, 1] [1, 3] [4] true
        (List.replicate 10 3) = .ok (List.replicate 10 0) :=
  ⟨by decide, by decide,
    filter_zero_preservation.2.2 [(1 : ℚ), 2, 1] [1, 0, 0] [5, 7] [2, 1] [1, 3] [4]
      true 10 3 (by decide) (by decide)⟩

/-! ### Claim C7 — pipeline parameters are module constants, not inputs -/

/-- C7 counterexample: neither the filter stage nor the spectral stage
exposes any numeric parameter: `filter_eeg` takes only a file path and two
boolean flags, and `compute_muse_psd` takes only the dataframe, so the
sample rate, notch frequency and quality factor, band-pass cutoffs and
order, and window/hop sizes cannot be substituted by a caller. -/
theorem pipeline_parameters_not_overridable :
    (∀ p ∈ filter_eeg_param_names,
        p = "eeg_csv_path" ∨ p = "apply_bandpass" ∨ p = "verbose") ∧
    (∀ p ∈ compute_muse_psd_param_names, p = "df") := by
  constructor
  · intro p hp
    simp only [filter_eeg_param_names, List.mem_cons, List.not_mem_nil,
      or_false] at hp
    tauto
  · intro p hp
    simpa [compute_muse_psd_param_names] using hp

/-- C7 (amended): every numeric pipeline parameter is a module-level
constant with a fixed value (`FS = 256`, `NOTCH_FREQ = 60`, `NOTCH_Q = 25`,
`BANDPASS_LOW = 1`, `BANDPASS_HIGH = 40`, `BANDPASS_ORDER = 4`,
`SAMPLE_RATE = 256`, `WINDOW_SIZE = 256`, `SLIDE_RATE = 22`), and the only
caller inputs are the file path plus two boolean flags for the filter stage
and the dataframe for the spectral stage. -/
theorem pipeline_parameters_are_module_constants :
    FS = 256 ∧ NOTCH_FREQ = 60 ∧ NOTCH_Q = 25 ∧ BANDPASS_LOW = 1 ∧
    BANDPASS_HIGH = 40 ∧ BANDPASS_ORDER = 4 ∧ SAMPLE_RATE = 256 ∧
    WINDOW_SIZE = 256 ∧ SLIDE_RATE = 22 ∧
    filter_eeg_param_names = ["eeg_csv_path", "apply_bandpass", "verbose"] ∧
    compute_muse_psd_param_names = ["df"] := by
  repeat constructor <;> decide

/-! ### Interpolation lemmas -/

theorem npInterp_left {q : ℚ} {xp fp : List ℚ} (hne : xp ≠ [])
    (hlen : fp.length = xp.length) (hq : q < xp.headD 0) :
    npInterp q xp fp = fp.headD 0 := by
  cases xp with
  | nil => exact absurd rfl hne
  | cons x0 xs =>
      cases fp with
      | nil => simp at hlen
      | cons f0 fs =>
          cases xs with
          | nil => rfl
          | cons x1 xs' =>
              cases fs with
              | nil => simp at hlen
              | cons f1 fs' =>
                  simp only [npInterp]
                  rw [if_pos (by simpa using hq)]
                  rfl

theorem npInterp_right {q : ℚ} :
    ∀ (xp fp : List ℚ), fp.length = xp.length → (∀ v ∈ xp, v ≤ q) →
      xp ≠ [] → npInterp q xp fp = fp.getLastD 0 := by
  intro xp
  induction xp with
  | nil => exact fun fp _ _ hne => absurd rfl hne
  | cons x0 xs ih =>
      intro fp hlen hle _
      cases fp with
      | nil => simp at hlen
      | cons f0 fs =>
          cases xs with
          | nil =>
              cases fs with
              | nil => rfl
              | cons f1 fs' => simp at hlen
          | cons x1 xs' =>
              cases fs with
              | nil => simp at hlen
              | cons f1 fs' =>
                  have h0 : ¬ q < x0 := not_lt.2 (hle x0 (by simp))
                  have h1 : ¬ q < x1 := not_lt.2 (hle x1 (by simp))
                  simp only [npInterp]
                  rw [if_neg h0, if_neg h1]
                  rw [ih (f1 :: fs') (by simpa using hlen)
                    (fun v hv => hle v (List.mem_cons_of_mem _ hv)) (by simp)]
                  rw [List.getLastD_eq_getLast?, List.getLastD_eq_getLast?,
                    List.getLast?_cons_cons]

theorem sorted_head_le_getD {y : ℚ} {ys : List ℚ}
    (hpw : List.Pairwise (· < ·) (y :: ys)) {i : ℕ}
    (hi : i < (y :: ys).length) : y ≤ (y :: ys).getD i 0 := by
  cases i with
  | zero => simp
  | succ j =>
      have hj : j < ys.length := by simpa using hi
      rw [List.getD_cons_succ, List.getD_eq_getElem _ _ hj]
      exact le_of_lt ((List.pairwise_cons.1 hpw).1 _ (List.getElem_mem hj))

theorem sorted_le_getLastD :
    ∀ {l : List ℚ}, List.Pairwise (· < ·) l → ∀ v ∈ l, v ≤ l.getLastD 0 := by
  intro l
  induction l with
  | nil => intro _ v hv; simp at hv
  | cons y ys ih =>
      intro hpw v hv
      cases ys with
      | nil =>
          simp only [List.mem_singleton] at hv
          subst hv
          rfl
      | cons z zs =>
          have hlast : (z :: zs).getLastD 0 ∈ z :: zs := by
            rw [List.getLastD_eq_getLast?, List.getLast?_eq_getLast _ (by simp)]
            exact List.getLast_mem _
          have hstep : (y :: z :: zs).getLastD 0 = (z :: zs).getLastD 0 := by
            rw [List.getLastD_eq_getLast?, List.getLastD_eq_getLast?,
              List.getLast?_cons_cons]
          rcases List.mem_cons.1 hv with rfl | hv'
          · rw [hstep]
            exact le_of_lt ((List.pairwise_cons.1 hpw).1 _ hlast)
          · rw [hstep]
            exact ih hpw.of_cons v hv'

theorem npInterp_segment {q : ℚ} :
    ∀ (xp fp : List ℚ) (k : ℕ), k + 1 < xp.length → fp.length = xp.length →
      List.Pairwise (· < ·) xp → xp.getD k 0 ≤ q → q < xp.getD (k + 1) 0 →
      npInterp q xp fp = fp.getD k 0 + (fp.getD (k + 1) 0 - fp.getD k 0) *
        (q - xp.getD k 0) / (xp.getD (k + 1) 0 - xp.getD k 0) := by
  intro xp
  induction xp with
  | nil => intro fp k hk; simp at hk
  | cons x0 xs ih =>
      intro fp k hk hlen hpw hqa hqb
      cases xs with
      | nil => simp at hk
      | cons x1 xs' =>
          cases fp with
          | nil => simp at hlen
          | cons f0 fs =>
              cases fs with
              | nil => simp at hlen
              | cons f1 fs' =>
                  cases k with
                  | zero =>
                      have h0 : ¬ q < x0 := not_lt.2 (by simpa using hqa)
                      have h1 : q < x1 := by simpa using hqb
                      simp only [npInterp]
                      rw [if_neg h0, if_pos h1]
                      simp [List.getD_cons_succ, List.getD_cons_zero]
                  | succ k' =>
                      have hk' : k' + 1 < (x1 :: xs').length := by simpa using hk
                      have hqa' : (x1 :: xs').getD k' 0 ≤ q := by
                        simpa [List.getD_cons_succ] using hqa
                      have hx1le : x1 ≤ (x1 :: xs').getD k' 0 :=
                        sorted_head_le_getD hpw.of_cons (by omega)
                      have h1 : ¬ q < x1 := not_lt.2 (le_trans hx1le hqa')
                      have h0 : ¬ q < x0 := by
                        have hx01 : x0 < x1 :=
                          (List.pairwise_cons.1 hpw).1 x1 (by simp)
                        exact not_lt.2 (le_trans (le_of_lt hx01) (not_lt.1 h1))
                      simp only [npInterp]
                      rw [if_neg h0, if_neg h1]
                      rw [ih (f1 :: fs') k' hk' (by simpa using hlen) hpw.of_cons
                        hqa' (by simpa [List.getD_cons_succ] using hqb)]
                      simp [List.getD_cons_succ]

theorem validPairsAux_fst_le (t : List (Option ℚ)) :
    ∀ (i0 : ℕ), ∀ p ∈ validPairsAux i0 t, (i0 : ℚ) ≤ p.1 := by
  induction t with
  | nil => intro i0 p hp; simp [validPairsAux] at hp
  | cons a t ih =>
      intro i0 p hp
      cases a with
      | none =>
          have := ih (i0 + 1) p (by simpa [validPairsAux] using hp)
          have hcast : ((i0 : ℚ)) ≤ ((i0 + 1 : ℕ) : ℚ) := by push_cast; linarith
          linarith
      | some v =>
          simp only [validPairsAux, List.mem_cons] at hp
          rcases hp with rfl | hp'
          · rfl
          · have := ih (i0 + 1) p hp'
            have hcast : ((i0 : ℚ)) ≤ ((i0 + 1 : ℕ) : ℚ) := by push_cast; linarith
            linarith

theorem validPairsAux_sorted (t : List (Option ℚ)) :
    ∀ (i0 : ℕ), List.Pairwise (fun p r : ℚ × ℚ => p.1 < r.1)
      (validPairsAux i0 t) := by
  induction t with
  | nil => intro i0; simp [validPairsAux]
  | cons a t ih =>
      intro i0
      cases a with
      | none => simpa [validPairsAux] using ih (i0 + 1)
      | some v =>
          simp only [validPairsAux]
          refine List.pairwise_cons.2 ⟨?_, ih (i0 + 1)⟩
          intro p hp
          have := validPairsAux_fst_le t (i0 + 1) p hp
          have hcast : ((i0 : ℚ)) < ((i0 + 1 : ℕ) : ℚ) := by push_cast; linarith
          exact lt_of_lt_of_le hcast this

theorem validIdx_sorted (x : List (Option ℚ)) :
    List.Pairwise (· < ·) (validIdx x) :=
  (validPairsAux_sorted x 0).map Prod.fst (fun _ _ h => h)

theorem validVals_length (x : List (Option ℚ)) :
    (validVals x).length = (validIdx x).length := by
  simp [validVals, validIdx]

theorem interpolate_nans_getD {x : List (Option ℚ)} {i : ℕ} (hi : i < x.length) :
    (interpolate_nans x).getD i 0 =
      match x.getD i none with
      | some v => v
      | none => npInterp (i : ℚ) (validIdx x) (validVals x) := by
  have hi' : i < (List.range x.length).length := by simpa using hi
  simp only [interpolate_nans]
  rw [List.getD_eq_getElem _ _ (by simpa using hi')]
  simp

/-! ### Claim C10 — NaN interpolation: constant edges, linear interior -/

/-- C10: for a channel with at least one valid sample, NaN samples before
the first valid index take the first valid value and NaN samples after the
last valid index take the last valid value (constant edge extrapolation,
not linear); a NaN sample strictly between two consecutive valid indices is
linearly interpolated between their values by sample index. -/
theorem interpolate_nans_contract :
    (∀ (x : List (Option ℚ)) (i : ℕ), validIdx x ≠ [] → i < x.length →
        x.getD i none = none → (i : ℚ) < (validIdx x).headD 0 →
        (interpolate_nans x).getD i 0 = (validVals x).headD 0) ∧
    (∀ (x : List (Option ℚ)) (i : ℕ), validIdx x ≠ [] → i < x.length →
        x.getD i none = none → (validIdx x).getLastD 0 < (i : ℚ) →
        (interpolate_nans x).getD i 0 = (validVals x).getLastD 0) ∧
    (∀ (x : List (Option ℚ)) (i k : ℕ), k + 1 < (validIdx x).length →
        i < x.length → x.getD i none = none →
        (validIdx x).getD k 0 < (i : ℚ) → (i : ℚ) < (validIdx x).getD (k + 1) 0 →
        (interpolate_nans x).getD i 0 =
          (validVals x).getD k 0 +
            ((validVals x).getD (k + 1) 0 - (validVals x).getD k 0) *
              ((i : ℚ) - (validIdx x).getD k 0) /
              ((validIdx x).getD (k + 1) 0 - (validIdx x).getD k 0)) := by
  refine ⟨?_, ?_, ?_⟩
  · intro x i hne hi hnan hlt
    rw [interpolate_nans_getD hi]
    simp only [hnan]
    exact npInterp_left hne (validVals_length x) hlt
  · intro x i hne hi hnan hlast
    rw [interpolate_nans_getD hi]
    simp only [hnan]
    refine npInterp_right (validIdx x) (validVals x) (validVals_length x) ?_ hne
    intro v hv
    exact le_trans (sorted_le_getLastD (validIdx_sorted x) v hv) (le_of_lt hlast)
  · intro x i k hk hi hnan hka hkb
    rw [interpolate_nans_getD hi]
    simp only [hnan]
    exact npInterp_segment (validIdx x) (validVals x) k hk (validVals_length x)
      (validIdx_sorted x) (le_of_lt hka) hkb

/-- C10 witness: the channel `[NaN, 2, NaN, 6, NaN]` instantiates all three
parts — leading NaN, trailing NaN and the interior NaN between the valid
samples at indices 1 and 3. -/
theorem interpolate_nans_contract_witness :
    ((interpolate_nans [none, some 2, none, some (6 : ℚ), none]).getD 0 0 =
      (validVals [none, some 2, none, some (6 : ℚ), none]).headD 0) ∧
    ((interpolate_nans [none, some 2, none, some (6 : ℚ), none]).getD 4 0 =
      (validVals [none, some 2, none, some (6 : ℚ), none]).getLastD 0) ∧
    ((interpolate_nans [none, some 2, none, some (6 : ℚ), none]).getD 2 0 =
      (validVals [none, some 2, none, some (6 : ℚ), none]).getD 0 0 +
        ((validVals [none, some 2, none, some (6 : ℚ), none]).getD 1 0 -
          (validVals [none, some 2, none, some (6 : ℚ), none]).getD 0 0) *
          (((2 : ℕ) : ℚ) -
            (validIdx [none, some 2, none, some (6 : ℚ), none]).getD 0 0) /
          ((validIdx [none, some 2, none, some (6 : ℚ), none]).getD 1 0 -
            (validIdx [none, some 2, none, some (6 : ℚ), none]).getD 0 0)) :=
  ⟨interpolate_nans_contract.1 [none, some 2, none, some (6 : ℚ), none] 0
      (by decide) (by decide) (by decide) (by decide),
    interpolate_nans_contract.2.1 [none, some 2, none, some (6 : ℚ), none] 4
      (by decide) (by decide) (by decide) (by decide),
    interpolate_nans_contract.2.2 [none, some 2, none, some (6 : ℚ), none] 2 0
      (by decide) (by decide) (by decide) (by decide) (by decide)⟩

/-! ### src/processing/normalize.py — baseline z-score normalization

A dataframe is a list of named columns; a column holds `Option ℚ` values
(`none` = NaN). Normalized output values live in `Option ℝ` since the
baseline standard deviation is a square root; a pass-through column is the
input column with its rationals cast to `ℝ`. -/

/-- `TIMESTAMP_COLUMNS` of src/processing/normalize.py. -/
def TIMESTAMP_COLUMNS : List String :=
  ["TimeStamp", "unix_ms", "unix_ts", "lsl_unix_ts"]

/-- A tabular recording: named columns of possibly-missing samples. -/
structure DFQ where
  cols : List (String × List (Option ℚ))

/-- Column lookup by name (pandas `df[name]`, first match). -/
def lookupCol (df : DFQ) (name : String) : Option (List (Option ℚ)) :=
  df.cols.lookup name

/-- The non-null entries of a column (pandas skips NaN in reductions). -/
def someVals (vals : List (Option ℚ)) : List ℚ :=
  vals.filterMap id

/-- Column mean skipping NaNs (pandas `.mean()`); `none` when no valid
entry exists. -/
def colMean (vals : List (Option ℚ)) : Option ℚ :=
  if (someVals vals).length = 0 then none
  else some ((someVals vals).sum / (someVals vals).length)

/-- Column population variance skipping NaNs (the square of pandas
`.std(ddof=0)`); `none` when no valid entry exists. -/
def colVar (vals : List (Option ℚ)) : Option ℚ :=
  (colMean vals).map (fun m =>
    (((someVals vals).map (fun v => (v - m) ^ 2)).sum) / (someVals vals).length)

/-- Baseline standard deviation after the divide-by-zero guard
(`baseline_std[baseline_std == 0] = np.nan`): `none` when the column has no
valid entry or its variance is exactly zero, otherwise the square root of
the population variance. -/
noncomputable def maskedStd (vals : List (Option ℚ)) : Option ℝ :=
  match colVar vals with
  | none => none
  | some v => if v = 0 then none else some (Real.sqrt (v : ℝ))

/-- One normalized sample `(raw - baseline_mean) / baseline_std`; `none`
(NaN) when the sample, the mean or the masked standard deviation is
missing. -/
noncomputable def normVal (m : Option ℚ) (s : Option ℝ) (x : Option ℚ) :
    Option ℝ :=
  match m, s, x with
  | some mv, some sv, some xv => some (((xv : ℝ) - (mv : ℝ)) / sv)
  | _, _, _ => none

/-- The non-timestamp columns of the reference recording
(`channel_cols = [c for c in rest_df.columns if c not in TIMESTAMP_COLUMNS]`). -/
def channelCols (rest : DFQ) : List String :=
  (rest.cols.map Prod.fst).filter (fun c => decide (c ∉ TIMESTAMP_COLUMNS))

/-- Indices of the reference rows retained by edge culling:
`t_start = rest[ts_col].min() + start_buffer`,
`t_end = rest[ts_col].max() - end_buffer`, keep rows with
`t_start <= t <= t_end`; rows whose timestamp is NaN (or when the whole
timestamp column is NaN, making both bounds NaN) are dropped, as NaN
comparisons are false. -/
def keptIdx (rest : DFQ) (ts_col : String) (sb eb : ℚ) : List ℕ :=
  let tsvals := (lookupCol rest ts_col).getD []
  let tmin := (someVals tsvals).min?
  let tmax := (someVals tsvals).max?
  (List.range tsvals.length).filter (fun i =>
    match tmin, tmax, tsvals.getD i none with
    | some mn, some mx, some t => decide (mn + sb ≤ t) && decide (t ≤ mx - eb)
    | _, _, _ => false)

/-- The culled reference window of one channel (`rest_mid[c]`). -/
def baselineVals (rest : DFQ) (ts_col : String) (sb eb : ℚ) (c : String) :
    List (Option ℚ) :=
  (keptIdx rest ts_col sb eb).map
    (fun i => ((lookupCol rest c).getD []).getD i none)

/-- Per-channel baseline mean over the culled reference window. -/
def baselineMean (rest : DFQ) (ts_col : String) (sb eb : ℚ) (c : String) :
    Option ℚ :=
  colMean (baselineVals rest ts_col sb eb c)

/-- Per-channel baseline standard deviation over the culled reference
window, with the zero-variance guard applied. -/
noncomputable def baselineStd (rest : DFQ) (ts_col : String) (sb eb : ℚ)
    (c : String) : Option ℝ :=
  maskedStd (baselineVals rest ts_col sb eb c)

/-- One output column of the normalizer: a matched channel column is
replaced by `(raw - baseline_mean) / baseline_std`, every other column
passes through unchanged (rationals cast to `ℝ`). -/
noncomputable def normalizeCol (rest : DFQ) (ts_col : String) (sb eb : ℚ)
    (name : String) (vals : List (Option ℚ)) : List (Option ℝ) :=
  if name ∈ channelCols rest then
    vals.map (normVal (baselineMean rest ts_col sb eb name)
      (baselineStd rest ts_col sb eb name))
  else
    vals.map (Option.map (fun q : ℚ => (q : ℝ)))

/-- Embedding of `normalize` (src/processing/normalize.py, lines 28-66,
file I/O and the optional diagnostic printing elided): check that every
reference channel exists in the target (fatal otherwise), look up the
timestamp column (pandas `KeyError` otherwise), cull the reference edges
(fatal when nothing remains), compute per-channel baseline statistics with
the zero-variance guard, and return the target with every matched channel
column z-scored and all other columns unchanged. -/
noncomputable def normalize (rest exp : DFQ) (ts_col : String)
    (start_buffer end_buffer : ℚ) :
    Except String (List (String × List (Option ℝ))) :=
  if (channelCols rest).filter
      (fun c => decide (c ∉ exp.cols.map Prod.fst)) ≠ [] then
    .error "Experimental CSV missing channels"
  else if (lookupCol rest ts_col).isNone then
    .error "KeyError: timestamp column not found"
  else if keptIdx rest ts_col start_buffer end_buffer = [] then
    .error "Rest EEG empty after culling - check time column."
  else
    .ok (exp.cols.map (fun p =>
      (p.1, normalizeCol rest ts_col start_buffer end_buffer p.1 p.2)))

/-! ### Normalizer lemmas -/

theorem lookup_map_pairs {α β : Type} (l : List (String × α))
    (g : String → α → β) (c : String) :
    (l.map (fun p => (p.1, g p.1 p.2))).lookup c =
      (l.lookup c).map (fun v => g c v) := by
  induction l with
  | nil => rfl
  | cons p t ih =>
      rcases p with ⟨name, vals⟩
      by_cases hc : c = name
      · subst hc
        simp [List.lookup]
      · have hb : (c == name) = false := beq_eq_false_iff_ne.mpr hc
        simp [List.lookup, hb, ih]

theorem normVal_none_std (m : Option ℚ) (x : Option ℚ) :
    normVal m none x = none := by
  cases m <;> cases x <;> rfl

theorem normalize_ok_eq {rest exp : DFQ} {ts_col : String} {sb eb : ℚ}
    {out : List (String × List (Option ℝ))}
    (h : normalize rest exp ts_col sb eb = .ok out) :
    out = exp.cols.map (fun p => (p.1, normalizeCol rest ts_col sb eb p.1 p.2)) := by
  unfold normalize at h
  split_ifs at h
  all_goals
    first
    | exact Except.noConfusion h
    | exact (Except.ok.inj h).symm

/-! ### Claim C2 — zero-variance baselines propagate NaN, never raise -/

/-- C2: on a successful normalization, a matched channel whose baseline
population variance over the culled reference window is exactly zero comes
out as a fully-missing (NaN) column of the same length — no
division-by-zero error is raised — while a matched channel with nonzero
baseline variance is normalized normally, its masked standard deviation
being the square root of its variance. -/
theorem normalize_zero_std_contract :
    (∀ (rest exp : DFQ) (ts_col : String) (sb eb : ℚ)
        (out : List (String × List (Option ℝ))) (c : String)
        (xs : List (Option ℚ)),
        normalize rest exp ts_col sb eb = .ok out →
        c ∈ channelCols rest → exp.cols.lookup c = some xs →
        colVar (baselineVals rest ts_col sb eb c) = some 0 →
        out.lookup c = some (xs.map (fun _ => (none : Option ℝ)))) ∧
    (∀ (rest exp : DFQ) (ts_col : String) (sb eb : ℚ)
        (out : List (String × List (Option ℝ))) (c : String)
        (xs : List (Option ℚ)) (v : ℚ),
        normalize rest exp ts_col sb eb = .ok out →
        c ∈ channelCols rest → exp.cols.lookup c = some xs →
        colVar (baselineVals rest ts_col sb eb c) = some v → v ≠ 0 →
        baselineStd rest ts_col sb eb c = some (Real.sqrt (v : ℝ)) ∧
        out.lookup c = some (xs.map (normVal (baselineMean rest ts_col sb eb c)
          (some (Real.sqrt (v : ℝ)))))) := by
  constructor
  · intro rest exp ts_col sb eb out c xs hok hc hxs hvar
    rw [normalize_ok_eq hok, lookup_map_pairs, hxs, Option.map_some']
    have hstd : baselineStd rest ts_col sb eb c = none := by
      simp [baselineStd, maskedStd, hvar]
    rw [normalizeCol, if_pos hc, hstd]
    congr 1
    exact List.map_congr_left (fun a _ => normVal_none_std _ a)
  · intro rest exp ts_col sb eb out c xs v hok hc hxs hvar hv0
    have hstd : baselineStd rest ts_col sb eb c = some (Real.sqrt (v : ℝ)) := by
      simp only [baselineStd, maskedStd, hvar, if_neg hv0]
    refine ⟨hstd, ?_⟩
    rw [normalize_ok_eq hok, lookup_map_pairs, hxs, Option.map_some']
    rw [normalizeCol, if_pos hc, hstd]

/-! ### Claim C8 — frame: matched channels z-scored, everything else kept -/

/-- C8: on a successful normalization the output has exactly the target's
columns, in order and by name; a column that is not a matched reference
channel passes through unchanged (up to the numeric embedding ℚ → ℝ); and
each matched channel column is replaced, sample by sample, by
`(raw - baseline_mean) / baseline_std` with the zero-variance-masked
standard deviation. -/
theorem normalize_frame_contract :
    (∀ (rest exp : DFQ) (ts_col : String) (sb eb : ℚ)
        (out : List (String × List (Option ℝ))),
        normalize rest exp ts_col sb eb = .ok out →
        out.map Prod.fst = exp.cols.map Prod.fst) ∧
    (∀ (rest exp : DFQ) (ts_col : String) (sb eb : ℚ)
        (out : List (String × List (Option ℝ))) (c : String)
        (xs : List (Option ℚ)),
        normalize rest exp ts_col sb eb = .ok out →
        c ∉ channelCols rest → exp.cols.lookup c = some xs →
        out.lookup c = some (xs.map (Option.map (fun q : ℚ => (q : ℝ))))) ∧
    (∀ (rest exp : DFQ) (ts_col : String) (sb eb : ℚ)
        (out : List (String × List (Option ℝ))) (c : String)
        (xs : List (Option ℚ)),
        normalize rest exp ts_col sb eb = .ok out →
        c ∈ channelCols rest → exp.cols.lookup c = some xs →
        out.lookup c = some (xs.map (normVal (baselineMean rest ts_col sb eb c)
          (baselineStd rest ts_col sb eb c)))) := by
  refine ⟨?_, ?_, ?_⟩
  · intro rest exp ts_col sb eb out hok
    rw [normalize_ok_eq hok, List.map_map]
    rfl
  · intro rest exp ts_col sb eb out c xs hok hc hxs
    rw [normalize_ok_eq hok, lookup_map_pairs, hxs, Option.map_some']
    rw [normalizeCol, if_neg hc]
  · intro rest exp ts_col sb eb out c xs hok hc hxs
    rw [normalize_ok_eq hok, lookup_map_pairs, hxs, Option.map_some']
    rw [normalizeCol, if_pos hc]


def restEx : DFQ :=
  ⟨[("lsl_unix_ts", [some 0, some 10, some 20]),
    ("A", [some 5, some 5, some 5]),
    ("B", [some 1, some 2, some 3])]⟩

def expEx : DFQ :=
  ⟨[("lsl_unix_ts", [some 100]), ("A", [some 7]), ("B", [some 4])]⟩

/-- C2 witness: on the concrete reference recording `restEx` (channel `A`
constant, channel `B` varying) the normalizer succeeds, channel `A` of the
target comes out fully missing, and channel `B` is normalized with standard
deviation `sqrt(2/3)`. -/
theorem normalize_zero_std_contract_witness :
    normalize restEx expEx "lsl_unix_ts" 0 0 =
      .ok (expEx.cols.map (fun p =>
        (p.1, normalizeCol restEx "lsl_unix_ts" 0 0 p.1 p.2))) ∧
    (expEx.cols.map (fun p =>
        (p.1, normalizeCol restEx "lsl_unix_ts" 0 0 p.1 p.2))).lookup "A" =
      some ([some (7 : ℚ)].map (fun _ => (none : Option ℝ))) ∧
    (expEx.cols.map (fun p =>
        (p.1, normalizeCol restEx "lsl_unix_ts" 0 0 p.1 p.2))).lookup "B" =
      some ([some (4 : ℚ)].map (normVal (baselineMean restEx "lsl_unix_ts" 0 0 "B")
        (some (Real.sqrt ((2 / 3 : ℚ) : ℝ))))) := by
  have hok : normalize restEx expEx "lsl_unix_ts" 0 0 =
      .ok (expEx.cols.map (fun p =>
        (p.1, normalizeCol restEx "lsl_unix_ts" 0 0 p.1 p.2))) := by
    unfold normalize
    rw [if_neg (by decide), if_neg (by decide),
      if_neg (by
        simp only [keptIdx, restEx, lookupCol, List.lookup, add_zero, sub_zero]
        decide)]
  have hbA : baselineVals restEx "lsl_unix_ts" 0 0 "A" = [some 5, some 5, some 5] := by
    simp only [baselineVals, keptIdx, restEx, lookupCol, List.lookup, add_zero,
      sub_zero]
    decide
  have hbB : baselineVals restEx "lsl_unix_ts" 0 0 "B" = [some 1, some 2, some 3] := by
    simp only [baselineVals, keptIdx, restEx, lookupCol, List.lookup, add_zero,
      sub_zero]
    decide
  have hvA : colVar (baselineVals restEx "lsl_unix_ts" 0 0 "A") = some 0 := by
    rw [hbA]
    norm_num [colVar, colMean, someVals, List.filterMap_cons, List.sum_cons]
  have hvB : colVar (baselineVals restEx "lsl_unix_ts" 0 0 "B") = some (2 / 3) := by
    rw [hbB]
    norm_num [colVar, colMean, someVals, List.filterMap_cons, List.sum_cons]
  refine ⟨hok, ?_, ?_⟩
  · exact normalize_zero_std_contract.1 restEx expEx "lsl_unix_ts" 0 0 _ "A"
      [some 7] hok (by decide) (by decide) hvA
  · exact (normalize_zero_std_contract.2 restEx expEx "lsl_unix_ts" 0 0 _ "B"
      [some 4] (2 / 3) hok (by decide) (by decide) hvB (by norm_num)).2

/-- C8 witness: on the same concrete recordings the output's column names
are the target's, the timestamp column passes through unchanged, and the
matched channel `A` is replaced by its z-scored column. -/
theorem normalize_frame_contract_witness :
    normalize restEx expEx "lsl_unix_ts" 0 0 =
      .ok (expEx.cols.map (fun p =>
        (p.1, normalizeCol restEx "lsl_unix_ts" 0 0 p.1 p.2))) ∧
    (expEx.cols.map (fun p =>
        (p.1, normalizeCol restEx "lsl_unix_ts" 0 0 p.1 p.2))).map Prod.fst =
      expEx.cols.map Prod.fst ∧
    (expEx.cols.map (fun p =>
        (p.1, normalizeCol restEx "lsl_unix_ts" 0 0 p.1 p.2))).lookup "lsl_unix_ts" =
      some ([some (100 : ℚ)].map (Option.map (fun q : ℚ => (q : ℝ)))) ∧
    (expEx.cols.map (fun p =>
        (p.1, normalizeCol restEx "lsl_unix_ts" 0 0 p.1 p.2))).lookup "A" =
      some ([some (7 : ℚ)].map (normVal (baselineMean restEx "lsl_unix_ts" 0 0 "A")
        (baselineStd restEx "lsl_unix_ts" 0 0 "A"))) := by
  have hok : normalize restEx expEx "lsl_unix_ts" 0 0 =
      .ok (expEx.cols.map (fun p =>
        (p.1, normalizeCol restEx "lsl_unix_ts" 0 0 p.1 p.2))) := by
    unfold normalize
    rw [if_neg (by decide), if_neg (by decide),
      if_neg (by
        simp only [keptIdx, restEx, lookupCol, List.lookup, add_zero, sub_zero]
        decide)]
  refine ⟨hok,
    normalize_frame_contract.1 restEx expEx "lsl_unix_ts" 0 0 _ hok,
    normalize_frame_contract.2.1 restEx expEx "lsl_unix_ts" 0 0 _ "lsl_unix_ts"
      [some 100] hok (by decide) (by decide),
    normalize_frame_contract.2.2 restEx expEx "lsl_unix_ts" 0 0 _ "A"
      [some 7] hok (by decide) (by decide)⟩

/-! ### src/analysis/psd.py — band-power aggregation

A spectrogram power grid is a list of rows (one per frequency bin), each a
list of per-time-frame values. The grids handled by the code are
rectangular numpy arrays; out-of-range accesses below default to `0`/`[]`
and are ruled out by shape hypotheses in the theorems. -/

/-- The band catalogue `BANDS` of src/analysis/psd.py. -/
def BANDS : List (String × ℚ × ℚ) :=
  [("delta", 1, 4), ("theta", 4, 8), ("alpha", 9, 13), ("beta", 13, 30),
    ("gamma", 30, 200)]

/-- A per-channel grid of (frequency bin, time frame) values. -/
abbrev Grid := List (List ℝ)

/-- Indices of the frequency bins whose center lies within
`[fmin, fmax]` inclusive
(`np.where((freqs >= fmin) & (freqs <= fmax))[0]`). -/
def bandIdx (freqs : List ℚ) (fmin fmax : ℚ) : List ℕ :=
  (List.range freqs.length).filter
    (fun i => decide (fmin ≤ freqs.getD i 0) && decide (freqs.getD i 0 ≤ fmax))

/-- Number of time frames (columns) of a grid. -/
def gridNcols (g : Grid) : ℕ :=
  (g.headD []).length

/-- Embedding of `compute_bandpowers_time_series` (src/analysis/psd.py,
lines 138-164): per channel, convert the decibel grid back to linear scale
(`10 ** (dB / 10)`); per band, select the bins inside the band (skipping
the band entirely when none match), sum the linear power across those bins
per time frame, take `log10(. + 1e-12)`, and emit one
`(time, channel, band, power)` record per frame, zipped against the time
axis. -/
noncomputable def compute_bandpowers_time_series (freqs times : List ℚ)
    (psd : List (String × Grid)) : List (ℚ × String × String × ℝ) :=
  psd.flatMap (fun ch_grid =>
    let Sxx_linear : Grid :=
      ch_grid.2.map (fun row => row.map (fun v => (10 : ℝ) ^ (v / 10)))
    BANDS.flatMap (fun band =>
      let idx := bandIdx freqs band.2.1 band.2.2
      if idx.isEmpty then []
      else
        let band_power := (List.range (gridNcols Sxx_linear)).map
          (fun k => (idx.map (fun i => (Sxx_linear.getD i []).getD k 0)).sum)
        let band_power_log := band_power.map (fun s => Real.logb 10 (s + 1e-12))
        (times.zip band_power_log).map
          (fun tv => (tv.1, ch_grid.1, band.1, tv.2))))

theorem gridNcols_map_rows (g : Grid) (f : ℝ → ℝ) :
    gridNcols (g.map (fun row => row.map f)) = gridNcols g := by
  cases g <;> simp [gridNcols]

theorem BANDS_name_unique :
    ∀ p ∈ BANDS, ∀ q ∈ BANDS, p.1 = q.1 → p = q := by decide

theorem bandIdx_mem_lt {freqs : List ℚ} {fmin fmax : ℚ} {i : ℕ}
    (h : i ∈ bandIdx freqs fmin fmax) : i < freqs.length := by
  have := List.mem_filter.1 h
  simpa using this.1

theorem grid_linear_entry (grid : Grid) (i k : ℕ) (hi : i < grid.length)
    (hk : k < (grid.getD i []).length) :
    ((grid.map (fun row => row.map (fun v : ℝ => (10 : ℝ) ^ (v / 10)))).getD i
      []).getD k 0 = (10 : ℝ) ^ (((grid.getD i []).getD k 0) / 10) := by
  have hi2 : i < (grid.map (fun row =>
      row.map (fun v : ℝ => (10 : ℝ) ^ (v / 10)))).length := by
    simpa using hi
  rw [List.getD_eq_getElem (grid.map (fun row =>
      row.map (fun v : ℝ => (10 : ℝ) ^ (v / 10)))) [] hi2,
    List.getElem_map]
  rw [List.getD_eq_getElem grid [] hi] at hk ⊢
  have hk2 : k < (grid[i].map (fun v : ℝ => (10 : ℝ) ^ (v / 10))).length := by
    simpa using hk
  rw [List.getD_eq_getElem _ 0 hk2, List.getElem_map, List.getD_eq_getElem _ 0 hk]

/-! ### Claim C4 — band powers: linear-space summation, shared epsilon -/

/-- C4: for every decibel spectrogram and every catalogue band with at
least one frequency bin whose center lies within `[fmin, fmax]` inclusive,
the aggregator emits, per time frame and channel, the record
`(time, channel, band, log10(S + 1e-12))` where `S` sums `10^(dB/10)` over
exactly those bins — the same `1e-12` floor as the dB conversion — and a
band matching zero bins contributes no record at all (and no error). -/
theorem bandpower_aggregation_contract :
    (∀ (freqs times : List ℚ) (psd : List (String × Grid)) (ch : String)
        (grid : Grid) (band : String) (fmin fmax : ℚ) (k : ℕ),
        (ch, grid) ∈ psd → (band, fmin, fmax) ∈ BANDS →
        grid.length = freqs.length →
        (∀ row ∈ grid, row.length = gridNcols grid) →
        bandIdx freqs fmin fmax ≠ [] →
        k < times.length → k < gridNcols grid →
        (times.getD k 0, ch, band,
          Real.logb 10
            (((bandIdx freqs fmin fmax).map
              (fun i => (10 : ℝ) ^ (((grid.getD i []).getD k 0) / 10))).sum
              + 1e-12))
          ∈ compute_bandpowers_time_series freqs times psd) ∧
    (∀ (freqs times : List ℚ) (psd : List (String × Grid)) (band : String)
        (fmin fmax : ℚ),
        (band, fmin, fmax) ∈ BANDS → bandIdx freqs fmin fmax = [] →
        ∀ r ∈ compute_bandpowers_time_series freqs times psd,
          r.2.2.1 ≠ band) := by
  constructor
  · intro freqs times psd ch grid band fmin fmax k hpsd hband hrows hrect hidx
      hkt hkc
    have hempty : (bandIdx freqs fmin fmax).isEmpty = false := by
      cases h : bandIdx freqs fmin fmax with
      | nil => exact absurd h hidx
      | cons a l => rfl
    have hnc : gridNcols (grid.map (fun row =>
        row.map (fun v : ℝ => (10 : ℝ) ^ (v / 10)))) = gridNcols grid :=
      gridNcols_map_rows grid _
    unfold compute_bandpowers_time_series
    refine List.mem_flatMap.2 ⟨(ch, grid), hpsd, ?_⟩
    refine List.mem_flatMap.2 ⟨(band, fmin, fmax), hband, ?_⟩
    simp only [hempty, Bool.false_eq_true, if_false, hnc]
    have hsum : (bandIdx freqs fmin fmax).map
        (fun i => ((grid.map (fun row =>
          row.map (fun v : ℝ => (10 : ℝ) ^ (v / 10)))).getD i []).getD k 0) =
        (bandIdx freqs fmin fmax).map
          (fun i => (10 : ℝ) ^ (((grid.getD i []).getD k 0) / 10)) := by
      refine List.map_congr_left (fun i hi => ?_)
      have hilt : i < grid.length := by
        rw [hrows]
        exact bandIdx_mem_lt hi
      have hrowlen : k < (grid.getD i []).length := by
        rw [List.getD_eq_getElem grid [] hilt, hrect _ (List.getElem_mem hilt)]
        exact hkc
      exact grid_linear_entry grid i k hilt hrowlen
    rw [List.map_map]
    refine List.mem_iff_getElem.2 ⟨k, ?_, ?_⟩
    · simp only [List.length_map, List.length_zip, List.length_range]
      omega
    · simp only [List.getElem_map, List.getElem_zip, List.getElem_range,
        Function.comp]
      rw [List.getD_eq_getElem times 0 hkt, ← hsum]
  · intro freqs times psd band fmin fmax hband hempty r hr hrb
    obtain ⟨cg, hcg, hr2⟩ := List.mem_flatMap.1 hr
    obtain ⟨b', hb', hr3⟩ := List.mem_flatMap.1 hr2
    by_cases hbe : (bandIdx freqs b'.2.1 b'.2.2).isEmpty = true
    · simp only [if_pos hbe] at hr3
      exact absurd hr3 (List.not_mem_nil r)
    · simp only [if_neg hbe] at hr3
      obtain ⟨tv, _, rfl⟩ := List.mem_map.1 hr3
      have hname : b'.1 = band := hrb
      have hb'eq : b' = (band, fmin, fmax) :=
        BANDS_name_unique b' hb' (band, fmin, fmax) hband hname
      rw [hb'eq] at hbe
      simp only [hempty, List.isEmpty_nil] at hbe
      exact hbe trivial

/-- C4 witness: a concrete one-frame spectrogram with bins at 2, 3 and
10 Hz: the delta band [1,4] (bins 2 and 3 Hz) emits its summed-linear-power
record, and the gamma band [30,200], matching no bin of `[2, 3]`, emits
nothing. -/
theorem bandpower_aggregation_contract_witness :
    (([(0 : ℚ)].getD 0 0, "AF7", "delta",
      Real.logb 10 ((((bandIdx [2, 3, 10] 1 4).map
        (fun i => (10 : ℝ) ^
          ((([[(0 : ℝ)], [0], [10]].getD i []).getD 0 0) / 10))).sum) + 1e-12))
      ∈ compute_bandpowers_time_series [2, 3, 10] [0]
        [("AF7", [[(0 : ℝ)], [0], [10]])]) ∧
    (∀ r ∈ compute_bandpowers_time_series [2, 3] [0] [("AF7", [[(0 : ℝ)]])],
      r.2.2.1 ≠ "gamma") :=
  ⟨bandpower_aggregation_contract.1 [2, 3, 10] [0]
      [("AF7", [[(0 : ℝ)], [0], [10]])] "AF7" [[(0 : ℝ)], [0], [10]] "delta"
      1 4 0 (by simp) (by decide) (by decide) (by decide) (by decide)
      (by decide) (by decide),
    bandpower_aggregation_contract.2 [2, 3] [0] [("AF7", [[(0 : ℝ)]])] "gamma"
      30 200 (by decide) (by decide)⟩

/-! ### src/analysis/psd.py — spectral estimation (`compute_muse_psd`)

`compute_muse_psd` calls `scipy.signal.spectrogram(x, fs=SAMPLE_RATE,
window=hamming(WINDOW_SIZE), nperseg=WINDOW_SIZE,
noverlap=WINDOW_SIZE-SLIDE_RATE, scaling='density', mode='psd')` per
channel. The scipy semantics embedded here: when the signal is shorter
than `nperseg`, `nperseg` shrinks to the signal length (with a warning);
it is an error if `noverlap` is then not smaller than `nperseg`; the
one-sided frequency axis is `k*fs/nperseg`, the frame-center time axis is
`(nperseg/2 + j*(nperseg-noverlap))/fs`; each overlapping segment is
detrended (constant), windowed by a periodic Hamming window, transformed
by a DFT, and scaled to a one-sided power spectral density. -/

/-- `CHANNELS` of src/analysis/psd.py, in iteration order. -/
def CHANNELS : List String := ["AF7", "AF8", "TP9", "TP10"]

/-- The effective segment length for a signal of `n` samples: scipy
shrinks `nperseg` to the signal length when the signal is shorter. -/
def effNperseg (n : ℕ) : ℕ := min WINDOW_SIZE n

/-- The `noverlap` value `compute_muse_psd` passes
(`WINDOW_SIZE - SLIDE_RATE`). -/
def museNoverlap : ℕ := WINDOW_SIZE - SLIDE_RATE

/-- Hop between successive frames, `nperseg - noverlap`. -/
def specStep (n : ℕ) : ℕ := effNperseg n - museNoverlap

/-- Number of frames of the spectrogram of an `n`-sample signal. -/
def numFrames (n : ℕ) : ℕ := (n - effNperseg n) / specStep n + 1

/-- One-sided frequency-bin centers, `k * fs / nperseg` for
`k = 0 .. nperseg/2`; a function of the signal length only. -/
def spectrogramFreqs (n : ℕ) : List ℚ :=
  (List.range (effNperseg n / 2 + 1)).map
    (fun k => (k : ℚ) * (SAMPLE_RATE : ℚ) / (effNperseg n : ℚ))

/-- Frame-center times, `(nperseg/2 + j*step) / fs`; a function of the
signal length only. -/
def spectrogramTimes (n : ℕ) : List ℚ :=
  (List.range (numFrames n)).map
    (fun j => ((effNperseg n : ℚ) / 2 + (j : ℚ) * (specStep n : ℚ)) /
      (SAMPLE_RATE : ℚ))

/-- Periodic Hamming window coefficient (`scipy.signal.get_window('hamming',
M)` with its default `fftbins=True`). -/
noncomputable def hammingPeriodic (M i : ℕ) : ℝ :=
  0.54 - 0.46 * Real.cos (2 * Real.pi * (i : ℝ) / (M : ℝ))

/-- The `j`-th raw segment of the signal. -/
noncomputable def segmentVals (x : List ℚ) (j : ℕ) : List ℝ :=
  (List.range (effNperseg x.length)).map
    (fun i => ((x.getD (j * specStep x.length + i) 0 : ℚ) : ℝ))

/-- The segment after constant detrending (the scipy default
`detrend='constant'` subtracts the segment mean). -/
noncomputable def detrendedSeg (x : List ℚ) (j : ℕ) : List ℝ :=
  (segmentVals x j).map
    (fun v => v - (segmentVals x j).sum / ((segmentVals x j).length : ℝ))

/-- The detrended segment multiplied by the Hamming window. -/
noncomputable def windowedSeg (x : List ℚ) (j : ℕ) : List ℝ :=
  (List.range (effNperseg x.length)).map
    (fun i => hammingPeriodic (effNperseg x.length) i *
      (detrendedSeg x j).getD i 0)

/-- The `k`-th DFT coefficient of a segment. -/
noncomputable def dftBin (s : List ℝ) (k : ℕ) : ℂ :=
  ((List.range s.length).map (fun i => ((s.getD i 0 : ℝ) : ℂ) *
    Complex.exp (-2 * (Real.pi : ℂ) * Complex.I * (k : ℂ) * (i : ℂ) /
      (s.length : ℂ)))).sum

/-- Density scaling `1 / (fs * sum(win**2))`. -/
noncomputable def psdScale (M : ℕ) : ℝ :=
  1 / ((SAMPLE_RATE : ℝ) *
    ((List.range M).map (fun i => hammingPeriodic M i ^ 2)).sum)

/-- One-sided doubling factor: every bin except DC (and Nyquist when the
segment length is even) carries the power of its negative-frequency twin. -/
def binFactor (M k : ℕ) : ℝ :=
  if k = 0 ∨ (M % 2 = 0 ∧ k = M / 2) then 1 else 2

/-- The power grid of the spectrogram: rows are one-sided frequency bins,
columns are frames; `Sxx[k][j] = factor * |X_j[k]|^2 * scale`. -/
noncomputable def spectrogramSxx (x : List ℚ) : Grid :=
  (List.range (effNperseg x.length / 2 + 1)).map (fun k =>
    (List.range (numFrames x.length)).map (fun j =>
      binFactor (effNperseg x.length) k *
        Complex.normSq (dftBin (windowedSeg x j) k) *
        psdScale (effNperseg x.length)))

/-- Decibel conversion of a power grid
(`Sxx_dB = 10 * np.log10(Sxx + 1e-12)`). -/
noncomputable def toDecibels (g : Grid) : Grid :=
  g.map (fun row => row.map (fun p => 10 * Real.logb 10 (p + 1e-12)))

/-- Embedding of the `scipy.signal.spectrogram` call of `compute_muse_psd`:
errors when `noverlap` is not smaller than the (possibly shrunk) segment
length, otherwise returns the frequency axis, the time axis and the power
grid. -/
noncomputable def spectrogram (x : List ℚ) :
    Except String (List ℚ × List ℚ × Grid) :=
  if museNoverlap < effNperseg x.length then
    .ok (spectrogramFreqs x.length, spectrogramTimes x.length, spectrogramSxx x)
  else
    .error "noverlap must be less than nperseg."

/-- The channel loop of `compute_muse_psd` (src/analysis/psd.py, lines
38-70): per channel run the spectrogram, convert to decibels and record it
in the psd table; the returned frequency and time axes are set from the
FIRST channel only (`if freqs is None`), with no comparison against the
other channels. -/
noncomputable def compute_muse_psd_go (df : String → List ℚ) :
    List String → Option (List ℚ) → Option (List ℚ) →
    List (String × Grid) →
    Except String (Option (List ℚ) × Option (List ℚ) × List (String × Grid))
  | [], fr, ti, acc => .ok (fr, ti, acc)
  | ch :: rest, fr, ti, acc =>
      match spectrogram (df ch) with
      | .error e => .error e
      | .ok ft =>
          compute_muse_psd_go df rest
            (if fr.isNone then some ft.1 else fr)
            (if fr.isNone then some ft.2.1 else ti)
            (acc ++ [(ch, toDecibels ft.2.2)])

/-- Embedding of `compute_muse_psd`: run the loop over the fixed channel
list with empty accumulators. The dataframe is a map from channel name to
sample column (`df[ch].values`). -/
noncomputable def compute_muse_psd (df : String → List ℚ) :
    Except String (Option (List ℚ) × Option (List ℚ) × List (String × Grid)) :=
  compute_muse_psd_go df CHANNELS none none []

theorem spectrogram_ok {x : List ℚ} {v : List ℚ × List ℚ × Grid}
    (h : spectrogram x = .ok v) :
    v = (spectrogramFreqs x.length, spectrogramTimes x.length,
      spectrogramSxx x) := by
  unfold spectrogram at h
  split_ifs at h
  exact (Except.ok.inj h).symm

/-- A dataframe whose `AF8` column is longer than the others: its time axis
has two frames where the others have one. -/
def c1df : String → List ℚ :=
  fun ch => if ch = "AF8" then List.replicate 278 0 else List.replicate 256 0

/-- C1 counterexample: on `c1df` the per-channel time axes disagree
(`AF8` has a different time axis from `AF7`), yet `compute_muse_psd`
performs no validation and does not fail: it returns successfully with the
FIRST channel's axes. -/
theorem psd_axis_mismatch_unflagged :
    spectrogramTimes (c1df "AF8").length ≠ spectrogramTimes (c1df "AF7").length ∧
    (compute_muse_psd c1df).toOption.map (fun r => (r.1, r.2.1)) =
      some (some (spectrogramFreqs (c1df "AF7").length),
        some (spectrogramTimes (c1df "AF7").length)) := by
  constructor
  · intro h
    have h2 : (spectrogramTimes (c1df "AF8").length).length =
        (spectrogramTimes (c1df "AF7").length).length := congrArg List.length h
    simp only [spectrogramTimes, List.length_map, List.length_range] at h2
    exact absurd h2 (by decide)
  · rfl

/-- C1 (amended): `compute_muse_psd` performs no cross-channel axis
validation and never fails because of an axis mismatch; on success it
returns the first channel's (`AF7`) frequency and time axes, and both axes
are functions of the channel length alone, so whenever all channels have
the same length (as in every rectangular dataframe) the per-channel axes
coincide with the returned ones. -/
theorem psd_axes_amended :
    (∀ (df : String → List ℚ) (f t : Option (List ℚ))
        (psd : List (String × Grid)),
        compute_muse_psd df = .ok (f, t, psd) →
        f = some (spectrogramFreqs (df "AF7").length) ∧
        t = some (spectrogramTimes (df "AF7").length)) ∧
    (∀ (df : String → List ℚ),
        (∀ ch ∈ CHANNELS, (df ch).length = (df "AF7").length) →
        ∀ ch ∈ CHANNELS,
          spectrogramFreqs (df ch).length = spectrogramFreqs (df "AF7").length ∧
          spectrogramTimes (df ch).length =
            spectrogramTimes (df "AF7").length) := by
  constructor
  · intro df f t psd h
    unfold compute_muse_psd at h
    simp only [CHANNELS, compute_muse_psd_go] at h
    cases hs : spectrogram (df "AF7") with
    | error e =>
        rw [hs] at h
        exact Except.noConfusion h
    | ok ft =>
        rw [hs] at h
        simp only [Option.isNone_none, if_true, Option.isNone_some,
          Bool.false_eq_true, if_false] at h
        cases hs2 : spectrogram (df "AF8") with
        | error e =>
            rw [hs2] at h
            exact Except.noConfusion h
        | ok ft2 =>
            rw [hs2] at h
            cases hs3 : spectrogram (df "TP9") with
            | error e =>
                rw [hs3] at h
                exact Except.noConfusion h
            | ok ft3 =>
                rw [hs3] at h
                cases hs4 : spectrogram (df "TP10") with
                | error e =>
                    rw [hs4] at h
                    exact Except.noConfusion h
                | ok ft4 =>
                    rw [hs4] at h
                    have hinj := Except.ok.inj h
                    have hft := spectrogram_ok hs
                    constructor
                    · have hf := congrArg Prod.fst hinj
                      simp only at hf
                      rw [← hf, hft]
                    · have ht := congrArg (fun p =>
                        (p : Option (List ℚ) × Option (List ℚ) ×
                          List (String × Grid)).2.1) hinj
                      simp only at ht
                      rw [← ht, hft]
  · intro df hlen ch hch
    rw [hlen ch hch]
    exact ⟨rfl, rfl⟩

/-- The all-zero rectangular dataframe used to witness the amended claim. -/
def zeroDF : String → List ℚ := fun _ => List.replicate 256 0

/-- C1 witness: on a rectangular dataframe all per-channel axes coincide
with the first channel's. -/
theorem psd_axes_amended_witness :
    (∀ ch ∈ CHANNELS, (zeroDF ch).length = (zeroDF "AF7").length) ∧
    spectrogramFreqs (zeroDF "TP9").length =
      spectrogramFreqs (zeroDF "AF7").length ∧
    spectrogramTimes (zeroDF "TP9").length =
      spectrogramTimes (zeroDF "AF7").length :=
  ⟨by decide, (psd_axes_amended.2 zeroDF (by decide) "TP9" (by decide)).1,
    (psd_axes_amended.2 zeroDF (by decide) "TP9" (by decide)).2⟩

end RecordMuse
